import Mathlib

/-!
Verification of the chemistry card-drafting game engine
(`src/gameLogic.ts`, `src/firebaseService.ts`, `src/types.ts`).

The TypeScript source is shallowly embedded: pure functions become Lean
functions on the same data, the Firestore-backed operations
(`submitDraftSelection`, `checkWordSpelling`) become pure state
transformers `GameState → … → Option GameState` where `none` is the
declined (`return false`) outcome and `some s'` is the accepted outcome
writing state `s'`.  Strings of the source are represented as `String`
for identifiers and as `List Char` for the words and atomic symbols
manipulated character-by-character by the speller.
-/

/-- `ChemistryElement` from `src/data.ts` / `src/types.ts`: one card of the
catalog.  `positiveIon`/`negativeIon` are optional in the source
(absent ⇒ falsy), modelled with `Option`. -/
structure ChemistryElement where
  atomicNumber : Nat
  atomicSymbol : List Char
  massGroup : Nat
  family : String
  radioactive : Bool
  positiveIon : Option Nat
  negativeIon : Option Nat
  deriving DecidableEq, Repr

instance : Inhabited ChemistryElement := ⟨⟨0, [], 0, "", false, none, none⟩⟩

/-- `Player` from `src/types.ts`: identity plus the hand still to draft
from and the cards drafted so far (in draft order). -/
structure Player where
  id : String
  name : String
  isHost : Bool
  hand : List ChemistryElement
  draftedCards : List ChemistryElement
  deriving DecidableEq, Repr

/-- The fallback value used when indexing a player list (the source's
`players[i]` is always used at a valid index, guarded by the preceding
checks). -/
def defaultPlayer : Player := ⟨"", "", false, [], []⟩

instance : Inhabited Player := ⟨defaultPlayer⟩

/-- `GamePhase` from `src/types.ts`. -/
inductive GamePhase where
  | lobby | drafting | scoring | finished
  deriving DecidableEq, Repr

/-- `WordSpellingWinner` from `src/types.ts`: the placement event
(playerId, round). -/
structure WordSpellingWinner where
  playerId : String
  round : Nat
  deriving DecidableEq, Repr

/-- `GameState` from `src/types.ts` (fields the engine reads or writes). -/
structure GameState where
  id : String
  phase : GamePhase
  players : List Player
  deck : List ChemistryElement
  currentRound : Nat
  totalRounds : Nat
  wordSpellingWinners : List WordSpellingWinner
  deriving DecidableEq, Repr

/-! ### Symbol speller (`src/gameLogic.ts` lines 105-124) -/

/-- ASCII lower-casing, the behaviour of JS `toLowerCase()` on the
symbol/word alphabet used by the game. -/
def lowerChar (c : Char) : Char :=
  if 'A' ≤ c ∧ c ≤ 'Z' then Char.ofNat (c.toNat + 32) else c

/-- `word.toLowerCase()` on the character-list representation. -/
def lowerStr (s : List Char) : List Char := s.map lowerChar

/-- The recursion of `canSpellWordWithSymbols`, with an explicit fuel
argument bounding the recursion depth.  Every recursive call of the
source strictly shrinks the symbol list (the matched symbol is a member
and `filter (s !== atomicSymbol)` removes it), so with
`fuel = atomicSymbols.length` this computes exactly the source's
unbounded recursion; `canSpellAux_fuel_irrelevant` below proves the fuel
does not matter once it is at least the list length. -/
def canSpellAux : Nat → List (List Char) → List Char → Bool
  | _, _, [] => true
  | 0, _, _ => false
  | fuel + 1, atomicSymbols, word =>
      atomicSymbols.any fun atomicSymbol =>
        (lowerStr atomicSymbol).isPrefixOf (lowerStr word) &&
        canSpellAux fuel (atomicSymbols.filter (fun s => s ≠ atomicSymbol))
          (word.drop atomicSymbol.length)

/-- `canSpellWordWithSymbols` (`src/gameLogic.ts` lines 111-124): the empty
word is trivially spellable; otherwise some available symbol must be a
(case-insensitive) prefix of the word, and the rest of the word must be
spellable from the symbol list with **every occurrence equal to the
matched symbol filtered out** (`filter ((s) => s !== atomicSymbol)`). -/
def canSpellWordWithSymbols (atomicSymbols : List (List Char)) (word : List Char) : Bool :=
  canSpellAux atomicSymbols.length atomicSymbols word

/-- `canSpellWord` (`src/gameLogic.ts` lines 106-109). -/
def canSpellWord (cards : List ChemistryElement) (word : List Char) : Bool :=
  canSpellWordWithSymbols (cards.map (fun card => card.atomicSymbol)) word

theorem canSpellAux_word_nil (fuel : Nat) (syms : List (List Char)) :
    canSpellAux fuel syms [] = true := by
  cases fuel <;> rfl

theorem canSpellAux_zero (syms : List (List Char)) (c : Char) (w : List Char) :
    canSpellAux 0 syms (c :: w) = false := rfl

theorem canSpellAux_succ (fuel : Nat) (syms : List (List Char)) (c : Char) (w : List Char) :
    canSpellAux (fuel + 1) syms (c :: w) =
      syms.any (fun atomicSymbol =>
        (lowerStr atomicSymbol).isPrefixOf (lowerStr (c :: w)) &&
        canSpellAux fuel (syms.filter (fun s => s ≠ atomicSymbol))
          ((c :: w).drop atomicSymbol.length)) := rfl

/-- Filtering out a member strictly shrinks a list. -/
theorem length_filter_ne_lt {s : List Char} {l : List (List Char)} (h : s ∈ l) :
    (l.filter (fun t => t ≠ s)).length < l.length := by
  induction l with
  | nil => cases h
  | cons a l ih =>
    by_cases ha : a = s
    · subst ha
      have : (List.filter (fun t => decide (t ≠ a)) l).length ≤ l.length :=
        List.length_filter_le _ _
      simpa [List.filter_cons] using Nat.lt_succ_of_le this
    · rcases List.mem_cons.1 h with h' | h'
      · exact absurd h'.symm ha
      · simpa [List.filter_cons, ha] using Nat.succ_lt_succ (ih h')

theorem any_congr_mem {α : Type} {l : List α} {f g : α → Bool}
    (h : ∀ a ∈ l, f a = g a) : l.any f = l.any g := by
  induction l with
  | nil => rfl
  | cons a l ih =>
    simp only [List.any_cons]
    rw [h a (List.mem_cons_self a l), ih (fun b hb => h b (List.mem_cons_of_mem a hb))]

/-- The fuel in `canSpellAux` is irrelevant once it is at least the number
of available symbols: the recursion always strictly shrinks the symbol
list. -/
theorem canSpellAux_fuel_irrelevant :
    ∀ (fuel₁ fuel₂ : Nat) (syms : List (List Char)) (word : List Char),
      syms.length ≤ fuel₁ → syms.length ≤ fuel₂ →
      canSpellAux fuel₁ syms word = canSpellAux fuel₂ syms word := by
  intro fuel₁
  induction fuel₁ with
  | zero =>
    intro fuel₂ syms word h₁ _
    have hsyms : syms = [] := List.eq_nil_of_length_eq_zero (Nat.le_zero.1 h₁)
    subst hsyms
    cases word with
    | nil => rw [canSpellAux_word_nil, canSpellAux_word_nil]
    | cons c w =>
      cases fuel₂ with
      | zero => rfl
      | succ f₂ => rw [canSpellAux_zero, canSpellAux_succ]; rfl
  | succ f ih =>
    intro fuel₂ syms word h₁ h₂
    cases word with
    | nil => rw [canSpellAux_word_nil, canSpellAux_word_nil]
    | cons c w =>
      cases fuel₂ with
      | zero =>
        have hsyms : syms = [] := List.eq_nil_of_length_eq_zero (Nat.le_zero.1 h₂)
        subst hsyms
        rfl
      | succ f₂ =>
        rw [canSpellAux_succ, canSpellAux_succ]
        apply any_congr_mem
        intro s hs
        congr 1
        exact ih f₂ _ _
          (Nat.le_of_lt_succ (Nat.lt_of_lt_of_le (length_filter_ne_lt hs) h₁))
          (Nat.le_of_lt_succ (Nat.lt_of_lt_of_le (length_filter_ne_lt hs) h₂))

/-! ### Scoring functions (`src/gameLogic.ts`) -/

/-- The imperative scan of `calculateAtomicNumberScore`'s loop
(lines 63-73): walk the sorted list keeping the previous value, the
current run length and the best run length seen so far. -/
def seqScan : Nat → Nat → Nat → List Nat → Nat
  | _, _, best, [] => best
  | prev, cur, best, x :: xs =>
      if x = prev + 1 then seqScan x (cur + 1) (max best (cur + 1)) xs
      else seqScan x 1 best xs

/-- `calculateAtomicNumberScore` (`src/gameLogic.ts` lines 57-78): sort the
atomic numbers ascending, find the longest run of consecutive integers,
clamp it to [2,4] and square it.  Empty hand scores 0. -/
def calculateAtomicNumberScore (cards : List ChemistryElement) : Nat :=
  match (cards.map (fun card => card.atomicNumber)).insertionSort (· ≤ ·) with
  | [] => 0
  | a :: rest => (min (max (seqScan a 1 1 rest) 2) 4) ^ 2

/-- `reduce((sum, card) => sum + card.massGroup, 0)`. -/
def massSum (cards : List ChemistryElement) : Nat :=
  cards.foldl (fun sum card => sum + card.massGroup) 0

/-- `calculateAtomicMassScore` (`src/gameLogic.ts` lines 81-103): ±2 per
neighbor strictly below/above the player's mass-group sum. -/
def calculateAtomicMassScore (playerCards leftNeighborCards rightNeighborCards :
    List ChemistryElement) : Int :=
  let playerMass := massSum playerCards
  let leftMass := massSum leftNeighborCards
  let rightMass := massSum rightNeighborCards
  (((0 : Int)
    + (if playerMass > leftMass then 2 else 0))
    + (if playerMass < leftMass then -2 else 0)
    + (if playerMass > rightMass then 2 else 0))
    + (if playerMass < rightMass then -2 else 0)

/-- The contribution of a single neighbor `n` to player `p`'s mass score:
the two `if`s of the source that compare against that neighbor. -/
def massContribution (p n : List ChemistryElement) : Int :=
  (if massSum p > massSum n then 2 else 0) + (if massSum p < massSum n then -2 else 0)

/-- `pointValues` of `calculateWordSpellingPoints` (line 208). -/
def pointValues : List Nat := [8, 5, 2]

/-- The walk over the ascending distinct rounds (lines 211-221): look the
player up in each round's group of winners in turn, advancing the ladder
index by the group size; `pointValues[i] || 0` is `getD i 0`. -/
def wordPointsWalk (playerId : String) (winners : List WordSpellingWinner) :
    List Nat → Nat → Nat
  | [], _ => 0
  | round :: rest, currentPointIndex =>
      let roundWinners := winners.filter (fun w => w.round = round)
      if roundWinners.any (fun w => w.playerId = playerId) then
        pointValues.getD currentPointIndex 0
      else
        wordPointsWalk playerId winners rest (currentPointIndex + roundWinners.length)

/-- The ascending list of distinct round numbers present in the winner
list (`Object.keys(winnersByRound).map(Number).sort((a,b) => a-b)`). -/
def sortedRounds (winners : List WordSpellingWinner) : List Nat :=
  ((winners.map (fun w => w.round)).dedup).insertionSort (· ≤ ·)

/-- `calculateWordSpellingPoints` (`src/gameLogic.ts` lines 194-224). -/
def calculateWordSpellingPoints (playerId : String)
    (wordSpellingWinners : List WordSpellingWinner) : Nat :=
  if wordSpellingWinners.length = 0 then 0
  else wordPointsWalk playerId wordSpellingWinners (sortedRounds wordSpellingWinners) 0

/-! ### Dealing (`src/gameLogic.ts` lines 5-54) -/

/-- `getDeckConfig` (`src/gameLogic.ts` lines 16-34): table from player
count to (deckSize, handSize), with fallback (103, 10). -/
def getDeckConfig (players : Nat) : Nat × Nat :=
  match players with
  | 2 => (36, 15)
  | 3 => (54, 15)
  | 4 => (54, 13)
  | 5 => (54, 10)
  | 6 => (86, 14)
  | 7 => (103, 14)
  | 8 => (103, 12)
  | 9 => (103, 11)
  | 10 => (103, 10)
  | _ => (103, 10)

/-- Modelled from the spec: the card catalog `gameData` of `src/data.ts`,
which is not among the sources.  Spec §3: cards are "looked up from a
fixed catalog of 103 entries", "keyed by a unique positive integer
(atomic number)", and §4.1: "deckSize is always the atomic-number
ceiling" — so the catalog holds one card per atomic number 1..103.  The
remaining card fields are not constrained by the dealing claims and are
filled with placeholders. -/
def gameData : List ChemistryElement :=
  (List.range 103).map (fun i => ⟨i + 1, [], 1, "", false, none, none⟩)

/-- One step of the Fisher-Yates loop of `shuffleArray` (lines 8-11):
swap positions `i` and `j` of the list. -/
def swapIdx {α : Type} [Inhabited α] (l : List α) (i j : Nat) : List α :=
  (l.set i (l.getD j default)).set j (l.getD i default)

/-- `shuffleArray` (`src/gameLogic.ts` lines 6-13): Fisher-Yates from the
end.  The random draws `Math.floor(Math.random() * (i + 1))` are
abstracted as an oracle `rand`; `rand i % (i + 1)` lands in `[0, i]`
exactly as the source's draw does. -/
def shuffleArray {α : Type} [Inhabited α] (rand : Nat → Nat) (array : List α) : List α :=
  go (array.length - 1) array
where
  go : Nat → List α → List α
  | 0, l => l
  | i + 1, l => go i (swapIdx l (i + 1) (rand (i + 1) % (i + 2)))

/-- `dealCards` (`src/gameLogic.ts` lines 37-54): filter the catalog to
atomic numbers ≤ deckSize, shuffle, slice into `players` hands of
`handSize` consecutive cards. -/
def dealCards (rand : Nat → Nat) (players : Nat) : List (List ChemistryElement) :=
  let deckSize := (getDeckConfig players).1
  let handSize := (getDeckConfig players).2
  let filteredDeck := gameData.filter (fun card => card.atomicNumber ≤ deckSize)
  let shuffledDeck := shuffleArray rand filteredDeck
  (List.range players).map (fun i => (shuffledDeck.drop (i * handSize)).take handSize)

/-! ### Draft rotation engine (`src/firebaseService.ts` lines 192-296)

The Firestore plumbing (query by game id, `updateDoc`) is the excluded
storage collaborator; the embedded operation is the pure state
transformer applied between the read and the write.  `none` models the
`return false` (declined) paths; `some s'` models an accepted submission
writing `s'`. -/

/-- Move the card at `idx` from the hand to the end of the drafted set
(`firebaseService.ts` lines 217-228): `newHand` drops exactly position
`idx` (`filter((_, index) => index !== cardIndex)`), `newDraftedCards`
appends `hand[cardIndex]`. -/
def movePlayerCard (p : Player) (idx : Nat) : Player :=
  { p with hand := p.hand.eraseIdx idx,
           draftedCards := p.draftedCards ++ [p.hand.getD idx default] }

/-- The hand lengths of all players (`updatedPlayers.map(p => p.hand.length)`). -/
def handLengths (ps : List Player) : List Nat := ps.map (fun p => p.hand.length)

/-- Hand rotation on round completion (`firebaseService.ts` lines 270-279):
every player's hand becomes the hand of the seating successor
`(index + 1) % players.length`. -/
def passHands (ps : List Player) : List Player :=
  ps.mapIdx (fun i p => { p with hand := (ps.getD ((i + 1) % ps.length) defaultPlayer).hand })

/-- `submitDraftSelection` (`src/firebaseService.ts` lines 192-296).
Declines when the player id is unknown or `cardIndex` is outside
`[0, hand.length)`.  Otherwise moves the selected card, and if afterwards
all hand lengths coincide (`Math.max ... === Math.min ...`), either ends
drafting (phase `scoring`) when all hands are empty, or rotates the hands
and increments the round. -/
def submitDraftSelection (g : GameState) (playerId : String) (cardIndex : Int) :
    Option GameState :=
  match g.players.findIdx? (fun p => p.id == playerId) with
  | none => none
  | some playerIndex =>
    let player := g.players.getD playerIndex defaultPlayer
    if cardIndex < 0 ∨ (player.hand.length : Int) ≤ cardIndex then none
    else
      let updatedPlayers := g.players.set playerIndex (movePlayerCard player cardIndex.toNat)
      let allPlayersSelected :=
        (handLengths updatedPlayers).max? = (handLengths updatedPlayers).min?
      if allPlayersSelected then
        if updatedPlayers.all (fun p => p.hand.length == 0) then
          some { g with players := updatedPlayers, phase := GamePhase.scoring }
        else
          some { g with players := passHands updatedPlayers,
                        currentRound := g.currentRound + 1 }
      else
        some { g with players := updatedPlayers }

/-! ### Word spelling entry point (`src/firebaseService.ts` lines 299-352) -/

/-- `checkWordSpelling` (`src/firebaseService.ts` lines 299-352): declines
when the player id is unknown, the player already holds a placement
event, the word is not exactly 5 characters, or the speller fails on the
revealed cards `draftedCards.slice(0, currentRound - 1)`; otherwise
appends the single event `(playerId, currentRound)`. -/
def checkWordSpelling (g : GameState) (playerId : String) (word : List Char) :
    Option GameState :=
  match g.players.find? (fun p => p.id == playerId) with
  | none => none
  | some player =>
    if g.wordSpellingWinners.any (fun w => w.playerId == playerId) then none
    else if word.length ≠ 5 then none
    else
      let revealedCards := player.draftedCards.take (g.currentRound - 1)
      if canSpellWord revealedCards word then
        some { g with wordSpellingWinners :=
                 g.wordSpellingWinners ++ [⟨playerId, g.currentRound⟩] }
      else none

/-! ### Claim C1: duplicate symbol instances under consumption -/

/-- Unfolding of the speller on a non-empty word: some available symbol
must match as a (case-insensitive) prefix, and the remainder must be
spellable after `filter ((s) => s !== atomicSymbol)` — which removes
**every** occurrence equal to the matched symbol, not just one. -/
theorem canSpellWordWithSymbols_cons (syms : List (List Char)) (c : Char) (w : List Char) :
    canSpellWordWithSymbols syms (c :: w) =
      syms.any (fun atomicSymbol =>
        (lowerStr atomicSymbol).isPrefixOf (lowerStr (c :: w)) &&
        canSpellWordWithSymbols (syms.filter (fun s => s ≠ atomicSymbol))
          ((c :: w).drop atomicSymbol.length)) := by
  unfold canSpellWordWithSymbols
  cases syms with
  | nil => rfl
  | cons s ss =>
    rw [show (s :: ss).length = ss.length + 1 from rfl, canSpellAux_succ]
    apply any_congr_mem
    intro t ht
    congr 1
    exact canSpellAux_fuel_irrelevant _ _ _ _
      (Nat.lt_succ_iff.1 (length_filter_ne_lt ht)) le_rfl

/-- C1 (counterexample): the claim asserts that with the five tokens
["H","E","L","L","O"] (two separate "L" instances) the word "HELLO" is
spellable; the code returns `false` on exactly that input, because
consuming one "L" filters out both "L" instances. -/
theorem canSpell_duplicate_counterexample :
    canSpellWordWithSymbols [['H'], ['E'], ['L'], ['L'], ['O']] ['H', 'E', 'L', 'L', 'O']
      = false := by decide

/-- C1 (amended): `canSpellWordWithSymbols` consumes a matched token by
removing **every** occurrence equal to it from the available set
(`filter ((s) => s !== atomicSymbol)`), so duplicate token instances are
merged away rather than remaining usable: with the five tokens
["H","E","L","L","O"] the word "HELLO" is not spellable (`false`), and
with only one "L" instance it is also not spellable (`false`). -/
theorem canSpell_removes_all_equal_occurrences :
    canSpellWordWithSymbols [['H'], ['E'], ['L'], ['L'], ['O']] ['H', 'E', 'L', 'L', 'O']
        = false ∧
    canSpellWordWithSymbols [['H'], ['E'], ['L'], ['O']] ['H', 'E', 'L', 'L', 'O']
        = false ∧
    (∀ (syms : List (List Char)) (c : Char) (w : List Char),
      canSpellWordWithSymbols syms (c :: w) =
        syms.any (fun atomicSymbol =>
          (lowerStr atomicSymbol).isPrefixOf (lowerStr (c :: w)) &&
          canSpellWordWithSymbols (syms.filter (fun s => s ≠ atomicSymbol))
            ((c :: w).drop atomicSymbol.length))) :=
  ⟨by decide, by decide, canSpellWordWithSymbols_cons⟩

/-! ### Claim C7: mass-score contribution negates under swapping -/

/-- C7: the mass score is the sum of one contribution per neighbor, each
contribution (+2 strictly above, -2 strictly below, 0 on a tie) is
exactly negated when the two card lists are swapped, and a tie gives 0
in both directions. -/
theorem massContribution_swap_antisymm (P N : List ChemistryElement) :
    (∀ L R : List ChemistryElement,
        calculateAtomicMassScore P L R = massContribution P L + massContribution P R) ∧
    massContribution P N = - massContribution N P ∧
    (massSum P = massSum N → massContribution P N = 0 ∧ massContribution N P = 0) := by
  refine ⟨?_, ?_, ?_⟩
  · intro L R
    simp only [calculateAtomicMassScore, massContribution]
    ring
  · rcases Nat.lt_trichotomy (massSum P) (massSum N) with h | h | h
    · simp [massContribution, gt_iff_lt, h, Nat.lt_asymm h]
    · simp [massContribution, gt_iff_lt, h, lt_irrefl]
    · simp [massContribution, gt_iff_lt, h, Nat.lt_asymm h]
  · intro h
    constructor <;> simp [massContribution, gt_iff_lt, h, lt_irrefl]

/-- Witness for the tie clause of `massContribution_swap_antisymm` at a
concrete pair of equal-mass hands. -/
theorem massContribution_swap_antisymm_witness :
    massContribution [⟨1, [], 3, "", false, none, none⟩] [⟨2, [], 3, "", false, none, none⟩] = 0 ∧
    massContribution [⟨2, [], 3, "", false, none, none⟩] [⟨1, [], 3, "", false, none, none⟩] = 0 :=
  (massContribution_swap_antisymm _ _).2.2 (by decide)

/-! ### Claim C10: the 5-letter gate of `checkWordSpelling` -/

/-- C10: `checkWordSpelling` declines every word whose length is not
exactly 5, for every game state and player, while the underlying speller
itself has no length restriction: the empty word is trivially spellable
from any symbol set, and e.g. the 1-letter word "A" is spellable from
the token "A". -/
theorem checkWordSpelling_length_gate :
    (∀ (g : GameState) (playerId : String) (word : List Char),
        word.length ≠ 5 → checkWordSpelling g playerId word = none) ∧
    (∀ syms : List (List Char), canSpellWordWithSymbols syms [] = true) ∧
    canSpellWordWithSymbols [['A']] ['A'] = true := by
  refine ⟨?_, ?_, by decide⟩
  · intro g pid word h
    unfold checkWordSpelling
    cases hf : g.players.find? (fun p => p.id == pid) with
    | none => rfl
    | some player =>
      cases hany : g.wordSpellingWinners.any (fun w => w.playerId == pid) with
      | true => simp [hany]
      | false => simp [hany, h]
  · intro syms
    exact canSpellAux_word_nil _ _

/-- Witness for `checkWordSpelling_length_gate` at a concrete state and a
2-letter word. -/
theorem checkWordSpelling_length_gate_witness :
    checkWordSpelling ⟨"g", GamePhase.drafting, [], [], 1, 1, []⟩ "p" ['A', 'B'] = none :=
  checkWordSpelling_length_gate.1 _ _ _ (by decide)

/-! ### Claims C2 and C3: submitDraftSelection decline set and round completion -/

/-- The player list right after the selected card is moved, before the
round-completion check (`updatedPlayers` in the source). -/
def afterSelection (g : GameState) (pIdx : Nat) (cardIndex : Int) : List Player :=
  g.players.set pIdx (movePlayerCard (g.players.getD pIdx defaultPlayer) cardIndex.toNat)

/-- C2 (amended): for a player present in the game, `submitDraftSelection`
declines (returns `none`, leaving no state to observe, so no partial
mutation) **exactly** when the selected hand position is outside
[0, hand length); the source has no already-submitted check, so a player
who already holds `currentRound` (or more) drafted cards is not
declined on that ground. -/
theorem submitDraft_decline_iff (g : GameState) (playerId : String) (cardIndex : Int)
    (pIdx : Nat) (hfind : g.players.findIdx? (fun p => p.id == playerId) = some pIdx) :
    submitDraftSelection g playerId cardIndex = none ↔
      cardIndex < 0 ∨ ((g.players.getD pIdx defaultPlayer).hand.length : Int) ≤ cardIndex := by
  unfold submitDraftSelection
  rw [hfind]
  dsimp only
  by_cases hc : cardIndex < 0 ∨ ((g.players.getD pIdx defaultPlayer).hand.length : Int) ≤ cardIndex
  · rw [if_pos hc]
    simpa using hc
  · rw [if_neg hc]
    split_ifs <;> exact iff_of_false id hc

/-- A small card constructor for concrete states (only the atomic number
varies; the other fields play no role in drafting). -/
def testCard (n : Nat) : ChemistryElement := ⟨n, [], 1, "", false, none, none⟩

/-- A state in which player "a" has already submitted for the current
round (round 1, one drafted card) but still holds a card in hand. -/
def doubleSubmitState : GameState :=
  { id := "g", phase := GamePhase.drafting,
    players :=
      [⟨"a", "P1", true, [testCard 4], [testCard 3]⟩,
       ⟨"b", "P2", false, [testCard 5, testCard 6], []⟩],
    deck := [], currentRound := 1, totalRounds := 2, wordSpellingWinners := [] }

/-- C2 (counterexample): player "a" already holds `currentRound` drafted
cards, yet submitting a valid hand position is accepted, not declined —
the claimed already-submitted rejection does not exist in the code. -/
theorem submitDraft_double_submission_accepted :
    doubleSubmitState.currentRound ≤
      (doubleSubmitState.players.getD 0 defaultPlayer).draftedCards.length ∧
    submitDraftSelection doubleSubmitState "a" 0 ≠ none := by decide

/-- Pointwise description of the rotation: player `i` receives the hand
held by player `(i + 1) % N`. -/
theorem passHands_getD (ps : List Player) (i : Nat) (hi : i < ps.length) :
    ((passHands ps).getD i defaultPlayer).hand =
      (ps.getD ((i + 1) % ps.length) defaultPlayer).hand := by
  have hlen : (passHands ps).length = ps.length := List.length_mapIdx
  rw [List.getD_eq_getElem _ _ (hlen ▸ hi)]
  simp only [passHands, List.getElem_mapIdx]

/-- C3: when an accepted submission completes a round (all hand lengths
coincide afterwards), then: with at least one non-empty hand left, every
player's hand is replaced by the hand of the seating successor
`(i + 1) % N` and the round counter increments by exactly one (drafted
sets and phase untouched); with all hands empty, the phase becomes
`scoring` while the round counter and the (empty) hands are left as they
are. -/
theorem submitDraft_round_completion (g : GameState) (playerId : String) (cardIndex : Int)
    (pIdx : Nat) (hfind : g.players.findIdx? (fun p => p.id == playerId) = some pIdx)
    (hge : 0 ≤ cardIndex)
    (hlt : cardIndex < ((g.players.getD pIdx defaultPlayer).hand.length : Int))
    (hcomplete : (handLengths (afterSelection g pIdx cardIndex)).max? =
                 (handLengths (afterSelection g pIdx cardIndex)).min?) :
    ((afterSelection g pIdx cardIndex).all (fun p => p.hand.length == 0) = false →
      submitDraftSelection g playerId cardIndex =
        some { g with players := passHands (afterSelection g pIdx cardIndex),
                      currentRound := g.currentRound + 1 } ∧
      ∀ i, i < (afterSelection g pIdx cardIndex).length →
        ((passHands (afterSelection g pIdx cardIndex)).getD i defaultPlayer).hand =
          ((afterSelection g pIdx cardIndex).getD
            ((i + 1) % (afterSelection g pIdx cardIndex).length) defaultPlayer).hand) ∧
    ((afterSelection g pIdx cardIndex).all (fun p => p.hand.length == 0) = true →
      submitDraftSelection g playerId cardIndex =
        some { g with players := afterSelection g pIdx cardIndex,
                      phase := GamePhase.scoring }) := by
  have hc : ¬ (cardIndex < 0 ∨
      ((g.players.getD pIdx defaultPlayer).hand.length : Int) ≤ cardIndex) := by
    push_neg
    exact ⟨hge, hlt⟩
  unfold afterSelection at hcomplete ⊢
  constructor
  · intro hne
    refine ⟨?_, fun i hi => passHands_getD _ i hi⟩
    unfold submitDraftSelection
    rw [hfind]
    dsimp only
    rw [if_neg hc, if_pos hcomplete, hne, if_neg Bool.false_ne_true]
  · intro hall
    unfold submitDraftSelection
    rw [hfind]
    dsimp only
    rw [if_neg hc, if_pos hcomplete, hall, if_pos rfl]

/-- A round-1 state where player "b" has already picked and player "a"'s
submission will complete the round with non-empty hands remaining. -/
def rotationState : GameState :=
  { id := "g", phase := GamePhase.drafting,
    players :=
      [⟨"a", "P1", true, [testCard 1, testCard 2], []⟩,
       ⟨"b", "P2", false, [testCard 4], [testCard 5]⟩],
    deck := [], currentRound := 1, totalRounds := 2, wordSpellingWinners := [] }

/-- Witness for `submitDraft_round_completion`: at `rotationState`,
player "a" drafting hand position 0 rotates the hands and advances the
round. -/
theorem submitDraft_round_completion_witness :
    submitDraftSelection rotationState "a" 0 =
      some
        { rotationState with
          players := passHands (afterSelection rotationState 0 0),
          currentRound := rotationState.currentRound + 1 } :=
  ((submitDraft_round_completion rotationState "a" 0 0 (by decide) (by decide) (by decide)
    (by decide)).1 (by decide)).1

/-- Witness for `submitDraft_decline_iff`: at `rotationState`, hand
position 5 is out of range and the submission is declined. -/
theorem submitDraft_decline_iff_witness :
    submitDraftSelection rotationState "a" 5 = none :=
  (submitDraft_decline_iff rotationState "a" 5 0 (by decide)).2 (by decide)

/-! ### Claim C9: gating of the spelling attempt -/

/-- C9: for a player present in the game, `checkWordSpelling` declines
whenever the player already holds a recorded placement event; and every
accepted attempt has passed the speller on exactly the player's revealed
cards — the drafted cards at positions [0, currentRound − 1) — and
produces the input state with the single event
`(playerId, currentRound)` appended and nothing else changed. -/
theorem checkWordSpelling_gating (g : GameState) (playerId : String) (word : List Char)
    (player : Player)
    (hfind : g.players.find? (fun p => p.id == playerId) = some player) :
    (g.wordSpellingWinners.any (fun w => w.playerId == playerId) = true →
      checkWordSpelling g playerId word = none) ∧
    (∀ g', checkWordSpelling g playerId word = some g' →
      canSpellWord (player.draftedCards.take (g.currentRound - 1)) word = true ∧
      g' = { g with wordSpellingWinners :=
               g.wordSpellingWinners ++ [⟨playerId, g.currentRound⟩] }) := by
  constructor
  · intro hwon
    unfold checkWordSpelling
    rw [hfind]
    dsimp only
    rw [if_pos hwon]
  · intro g' hacc
    unfold checkWordSpelling at hacc
    rw [hfind] at hacc
    dsimp only at hacc
    by_cases hwon : g.wordSpellingWinners.any (fun w => w.playerId == playerId) = true
    · rw [if_pos hwon] at hacc
      exact absurd hacc (by simp)
    · rw [if_neg hwon] at hacc
      by_cases hlen : word.length ≠ 5
      · rw [if_pos hlen] at hacc
        exact absurd hacc (by simp)
      · rw [if_neg hlen] at hacc
        by_cases hspell :
            canSpellWord (player.draftedCards.take (g.currentRound - 1)) word = true
        · rw [if_pos hspell] at hacc
          exact ⟨hspell, (Option.some_injective _ hacc).symm⟩
        · rw [if_neg hspell] at hacc
          exact absurd hacc (by simp)

/-- A state for the `checkWordSpelling_gating` witness: player "a" has
five revealed drafted cards spelling "HOUSE" and no recorded event. -/
def spellingState : GameState :=
  { id := "g", phase := GamePhase.drafting,
    players :=
      [⟨"a", "P1", true, [],
        [⟨1, ['H'], 1, "", false, none, none⟩,
         ⟨8, ['O'], 1, "", false, none, none⟩,
         ⟨92, ['U'], 1, "", false, none, none⟩,
         ⟨16, ['S'], 1, "", false, none, none⟩,
         ⟨63, ['E'], 1, "", false, none, none⟩,
         ⟨2, ['X'], 1, "", false, none, none⟩]⟩],
    deck := [], currentRound := 6, totalRounds := 6, wordSpellingWinners := [] }

/-- Witness for `checkWordSpelling_gating`: the accepted attempt at
`spellingState` spells "HOUSE" from the five revealed cards (the sixth,
current-round card "X" is not used) and appends exactly one event. -/
theorem checkWordSpelling_gating_witness :
    canSpellWord
      (((spellingState.players.getD 0 defaultPlayer).draftedCards).take
        (spellingState.currentRound - 1)) ['H', 'O', 'U', 'S', 'E'] = true ∧
    ({ spellingState with wordSpellingWinners := [⟨"a", 6⟩] } : GameState) =
      { spellingState with wordSpellingWinners :=
          spellingState.wordSpellingWinners ++ [⟨"a", spellingState.currentRound⟩] } :=
  ((checkWordSpelling_gating spellingState "a" ['H', 'O', 'U', 'S', 'E']
      (spellingState.players.getD 0 defaultPlayer) (by decide)).2
    { spellingState with wordSpellingWinners := [⟨"a", 6⟩] } (by decide))

/-! ### Claim C6: sequence score -/

/-- Length of the chain of `+1` steps continuing from `prev` at the head
of the list. -/
def contLen : Nat → List Nat → Nat
  | _, [] => 0
  | prev, x :: xs => if x = prev + 1 then 1 + contLen x xs else 0

/-- Length of the consecutive run starting at the head of the list. -/
def chainPrefixLen : List Nat → Nat
  | [] => 0
  | x :: xs => 1 + contLen x xs

/-- Declarative longest run of consecutive integers (neighbors differing
by exactly 1) among the contiguous segments of a list: the maximum, over
every suffix, of the run starting there. -/
def longestRun : List Nat → Nat
  | [] => 0
  | x :: xs => max (chainPrefixLen (x :: xs)) (longestRun xs)

/-- The loop state invariant of `calculateAtomicNumberScore`: the scan
computes the best of the recorded best, the current run extended by its
continuation, and the longest run in the remainder. -/
theorem seqScan_eq (l : List Nat) : ∀ prev cur best : Nat, 1 ≤ cur → cur ≤ best →
    seqScan prev cur best l = max best (max (cur + contLen prev l) (longestRun l)) := by
  induction l with
  | nil =>
    intro prev cur best h1 hcb
    simp only [seqScan, contLen, longestRun]
    omega
  | cons x xs ih =>
    intro prev cur best h1 hcb
    by_cases hx : x = prev + 1
    · rw [show seqScan prev cur best (x :: xs) =
          seqScan x (cur + 1) (max best (cur + 1)) xs by simp [seqScan, hx]]
      rw [ih x (cur + 1) (max best (cur + 1)) (by omega) (le_max_right _ _)]
      simp only [contLen, longestRun, chainPrefixLen, if_pos hx]
      omega
    · rw [show seqScan prev cur best (x :: xs) = seqScan x 1 best xs by simp [seqScan, hx]]
      rw [ih x 1 best le_rfl (le_trans h1 hcb)]
      simp only [contLen, longestRun, chainPrefixLen, if_neg hx]
      omega

/-- The scan started as the source starts it (`maxSequence = 1`,
`currentSequence = 1`, previous = head) computes exactly the longest
consecutive run of the whole list. -/
theorem seqScan_eq_longestRun (a : Nat) (rest : List Nat) :
    seqScan a 1 1 rest = longestRun (a :: rest) := by
  rw [seqScan_eq rest a 1 1 le_rfl le_rfl]
  simp only [longestRun, chainPrefixLen]
  omega

/-- C6: for a non-empty hand, the sequence score equals the square of the
longest run of consecutive atomic numbers in the ascending sort, clamped
to [2,4]; consequently it is always 4, 9 or 16, it is 4 whenever no run
longer than 2 exists, and it is 16 for any run of 4 or more. -/
theorem atomicNumberScore_clamped_longest_run (cards : List ChemistryElement)
    (hne : cards ≠ []) :
    calculateAtomicNumberScore cards =
      (min (max (longestRun
        ((cards.map (fun card => card.atomicNumber)).insertionSort (· ≤ ·))) 2) 4) ^ 2 ∧
    (calculateAtomicNumberScore cards = 4 ∨ calculateAtomicNumberScore cards = 9 ∨
      calculateAtomicNumberScore cards = 16) ∧
    (longestRun ((cards.map (fun card => card.atomicNumber)).insertionSort (· ≤ ·)) ≤ 2 →
      calculateAtomicNumberScore cards = 4) ∧
    (4 ≤ longestRun ((cards.map (fun card => card.atomicNumber)).insertionSort (· ≤ ·)) →
      calculateAtomicNumberScore cards = 16) := by
  have hlen : ((cards.map (fun card => card.atomicNumber)).insertionSort (· ≤ ·)).length =
      cards.length :=
    ((List.perm_insertionSort _ _).length_eq).trans (List.length_map _ _)
  cases hs : (cards.map (fun card => card.atomicNumber)).insertionSort (· ≤ ·) with
  | nil =>
    exfalso
    rw [hs] at hlen
    exact hne (List.eq_nil_of_length_eq_zero hlen.symm)
  | cons a rest =>
    have hscore : calculateAtomicNumberScore cards =
        (min (max (seqScan a 1 1 rest) 2) 4) ^ 2 := by
      unfold calculateAtomicNumberScore
      rw [hs]
    rw [hscore, seqScan_eq_longestRun, ← hs]
    refine ⟨rfl, ?_, ?_, ?_⟩
    · set r := longestRun ((cards.map (fun card => card.atomicNumber)).insertionSort (· ≤ ·))
      have h2 : 2 ≤ min (max r 2) 4 := by omega
      have h4 : min (max r 2) 4 ≤ 4 := by omega
      interval_cases h : min (max r 2) 4 <;> simp
    · intro hr
      rw [show min (max (longestRun
        ((cards.map (fun card => card.atomicNumber)).insertionSort (· ≤ ·))) 2) 4 = 2 by omega]
      norm_num
    · intro hr
      rw [show min (max (longestRun
        ((cards.map (fun card => card.atomicNumber)).insertionSort (· ≤ ·))) 2) 4 = 4 by omega]
      norm_num

/-- Witness for `atomicNumberScore_clamped_longest_run`: a concrete
3-card hand 3,4,5 scores 9. -/
theorem atomicNumberScore_clamped_longest_run_witness :
    calculateAtomicNumberScore [testCard 4, testCard 5, testCard 3] =
      (min (max (longestRun (([testCard 4, testCard 5, testCard 3].map
        (fun card => card.atomicNumber)).insertionSort (· ≤ ·))) 2) 4) ^ 2 :=
  (atomicNumberScore_clamped_longest_run [testCard 4, testCard 5, testCard 3] (by decide)).1

/-! ### Claim C5: word-spelling placement points -/

theorem length_filter_split {α : Type} (l : List α) (p q : α → Bool) :
    (l.filter p).length =
      (l.filter (fun a => p a && q a)).length +
      (l.filter (fun a => p a && !q a)).length := by
  induction l with
  | nil => rfl
  | cons a l ih =>
    simp only [List.filter_cons]
    cases hp : p a <;> cases hq : q a <;> simp [hp, hq, ih] <;> omega

/-- A player occurring in no event gets 0 from the walk. -/
theorem wordPointsWalk_zero (pid : String) (winners : List WordSpellingWinner)
    (habs : ∀ w ∈ winners, ¬ w.playerId = pid) :
    ∀ (rs : List Nat) (idx : Nat), wordPointsWalk pid winners rs idx = 0 := by
  intro rs
  induction rs with
  | nil => intro idx; rfl
  | cons r rest ih =>
    intro idx
    unfold wordPointsWalk
    have hany : ((winners.filter (fun w => w.round = r)).any
        (fun w => w.playerId = pid)) = false := by
      rw [List.any_eq_false]
      intro w hw
      simp only [decide_eq_true_eq]
      exact habs w (List.mem_filter.1 hw).1
    dsimp only
    rw [hany]
    simp only [Bool.false_eq_true, if_false]
    exact ih _

/-- The ladder invariant of the walk: if the player's unique event has
round `r`, an element of the strictly sorted remaining round list `rs`,
then the walk returns the ladder entry at the accumulated index plus the
number of events in earlier rounds still inside `rs`. -/
theorem wordPointsWalk_ladder (winners : List WordSpellingWinner) (pid : String) (r : Nat) :
    ∀ (rs : List Nat) (idx : Nat), List.Sorted (· < ·) rs → r ∈ rs →
    ((winners.filter (fun w => w.round = r)).any (fun w => w.playerId = pid) = true) →
    (∀ w ∈ winners, w.playerId = pid → w.round = r) →
    wordPointsWalk pid winners rs idx =
      pointValues.getD
        (idx + (winners.filter
          (fun w => decide (w.round ∈ rs) && decide (w.round < r))).length) 0 := by
  intro rs
  induction rs with
  | nil => intro idx _ hr; cases hr
  | cons r₀ rest ih =>
    intro idx hsorted hr hany huniq
    by_cases h₀ : r₀ = r
    · subst h₀
      have hnil : winners.filter
          (fun w => decide (w.round ∈ r₀ :: rest) && decide (w.round < r₀)) = [] := by
        rw [List.filter_eq_nil_iff]
        intro w hw
        simp only [Bool.and_eq_true, decide_eq_true_eq, List.mem_cons, not_and]
        rintro (heq | hmem)
        · omega
        · have := List.rel_of_sorted_cons hsorted _ hmem
          omega
      rw [hnil]
      unfold wordPointsWalk
      dsimp only
      rw [hany]
      simp
    · have hrrest : r ∈ rest := by
        rcases List.mem_cons.1 hr with h | h
        · exact absurd h.symm h₀
        · exact h
      have hlt : r₀ < r := List.rel_of_sorted_cons hsorted _ hrrest
      have hany₀ : ((winners.filter (fun w => w.round = r₀)).any
          (fun w => w.playerId = pid)) = false := by
        rw [List.any_eq_false]
        intro w hw
        simp only [decide_eq_true_eq]
        intro hpid
        have := huniq w (List.mem_filter.1 hw).1 hpid
        have : w.round = r₀ := by
          have := (List.mem_filter.1 hw).2
          simpa using this
        omega
      unfold wordPointsWalk
      dsimp only
      rw [hany₀]
      simp only [Bool.false_eq_true, if_false]
      rw [ih _ (List.Sorted.tail hsorted) hrrest hany huniq]
      congr 1
      have hsplit := length_filter_split winners
        (fun w => decide (w.round ∈ r₀ :: rest) && decide (w.round < r))
        (fun w => decide (w.round = r₀))
      have he₁ : winners.filter
          (fun w => (decide (w.round ∈ r₀ :: rest) && decide (w.round < r)) &&
            decide (w.round = r₀)) =
          winners.filter (fun w => w.round = r₀) := by
        apply List.filter_congr
        intro w _
        simp only [Bool.and_eq_true, decide_eq_true_eq, List.mem_cons]
        by_cases hw : w.round = r₀
        · simp [hw, hlt]
        · simp [hw]
      have he₂ : winners.filter
          (fun w => (decide (w.round ∈ r₀ :: rest) && decide (w.round < r)) &&
            !decide (w.round = r₀)) =
          winners.filter (fun w => decide (w.round ∈ rest) && decide (w.round < r)) := by
        apply List.filter_congr
        intro w _
        simp only [Bool.and_eq_true, decide_eq_true_eq, List.mem_cons, Bool.not_eq_true',
          decide_eq_false_iff_not]
        have hr₀ : r₀ ∉ rest := fun hh =>
          absurd (List.rel_of_sorted_cons hsorted _ hh) (lt_irrefl r₀)
        by_cases hmem : w.round ∈ rest
        · have : r₀ < w.round := List.rel_of_sorted_cons hsorted _ hmem
          by_cases hwr : w.round < r <;> simp [hmem, hwr] <;> omega
        · by_cases hwr : w.round = r₀ <;> simp [hmem, hwr, hr₀]
      rw [he₁, he₂] at hsplit
      omega

/-- The distinct-round list the walk consumes is strictly sorted. -/
theorem sortedRounds_sorted (winners : List WordSpellingWinner) :
    List.Sorted (· < ·) (sortedRounds winners) := by
  apply List.Sorted.lt_of_le
  · exact List.sorted_insertionSort _ _
  · exact ((List.perm_insertionSort _ _).nodup_iff).2 (List.nodup_dedup _)

/-- Every event's round appears in the distinct-round list. -/
theorem mem_sortedRounds (winners : List WordSpellingWinner) (w : WordSpellingWinner)
    (hw : w ∈ winners) : w.round ∈ sortedRounds winners :=
  ((List.perm_insertionSort _ _).mem_iff).2
    ((List.mem_dedup).2 (List.mem_map.2 ⟨w, hw, rfl⟩))

/-- C5: when no player id occurs in two events, the walk over ascending
rounds with the ladder [8, 5, 2, 0, 0, …] gives each event's player the
ladder entry indexed by the number of events of strictly earlier rounds
(so all players tied in a round receive the same value and a tie of k
players advances the ladder k positions); a player with no event
receives 0; and on the events [(p1,1),(p2,1),(p3,2)] the scores are
p1 = 8, p2 = 8, p3 = 2. -/
theorem wordSpellingPoints_ladder (winners : List WordSpellingWinner)
    (hnodup : (winners.map (fun w => w.playerId)).Nodup) :
    (∀ w ∈ winners, calculateWordSpellingPoints w.playerId winners =
      pointValues.getD ((winners.filter (fun v => v.round < w.round)).length) 0) ∧
    (∀ pid : String, (∀ w ∈ winners, ¬ w.playerId = pid) →
      calculateWordSpellingPoints pid winners = 0) ∧
    (calculateWordSpellingPoints "p1" [⟨"p1", 1⟩, ⟨"p2", 1⟩, ⟨"p3", 2⟩] = 8 ∧
     calculateWordSpellingPoints "p2" [⟨"p1", 1⟩, ⟨"p2", 1⟩, ⟨"p3", 2⟩] = 8 ∧
     calculateWordSpellingPoints "p3" [⟨"p1", 1⟩, ⟨"p2", 1⟩, ⟨"p3", 2⟩] = 2) := by
  refine ⟨?_, ?_, by decide, by decide, by decide⟩
  · intro w hw
    have hne : winners.length ≠ 0 := by
      intro h
      rw [List.eq_nil_of_length_eq_zero h] at hw
      cases hw
    unfold calculateWordSpellingPoints
    rw [if_neg hne]
    have hany : ((winners.filter (fun v => v.round = w.round)).any
        (fun v => v.playerId = w.playerId)) = true := by
      rw [List.any_eq_true]
      exact ⟨w, List.mem_filter.2 ⟨hw, by simp⟩, by simp⟩
    have huniq : ∀ v ∈ winners, v.playerId = w.playerId → v.round = w.round := by
      intro v hv hpid
      rw [List.inj_on_of_nodup_map hnodup hv hw hpid]
    rw [wordPointsWalk_ladder winners w.playerId w.round (sortedRounds winners) 0
      (sortedRounds_sorted winners) (mem_sortedRounds winners w hw) hany huniq]
    congr 1
    rw [Nat.zero_add]
    congr 1
    apply List.filter_congr
    intro v hv
    simp [mem_sortedRounds winners v hv]
  · intro pid habs
    unfold calculateWordSpellingPoints
    by_cases hlen : winners.length = 0
    · rw [if_pos hlen]
    · rw [if_neg hlen]
      exact wordPointsWalk_zero pid winners habs _ _

/-- Witness for `wordSpellingPoints_ladder` at the three-event example,
read off for player p3. -/
theorem wordSpellingPoints_ladder_witness :
    calculateWordSpellingPoints "p3" [⟨"p1", 1⟩, ⟨"p2", 1⟩, ⟨"p3", 2⟩] =
      pointValues.getD ((([⟨"p1", 1⟩, ⟨"p2", 1⟩, ⟨"p3", 2⟩] :
        List WordSpellingWinner).filter
          (fun v => v.round < (⟨"p3", 2⟩ : WordSpellingWinner).round)).length) 0 :=
  (wordSpellingPoints_ladder [⟨"p1", 1⟩, ⟨"p2", 1⟩, ⟨"p3", 2⟩] (by decide)).1
    ⟨"p3", 2⟩ (by decide)

/-! ### Claim C8: dealing guarantees -/

theorem gameData_nodup : gameData.Nodup := by
  unfold gameData
  refine (List.nodup_range 103).map ?_
  intro a b h
  simpa using congrArg ChemistryElement.atomicNumber h

/-- Replacing position `k` while keeping the displaced element in front is
a permutation. -/
theorem cons_getElem_set_perm {α : Type} :
    ∀ (xs : List α) (k : Nat) (x : α) (hk : k < xs.length),
      List.Perm (xs[k] :: xs.set k x) (x :: xs) := by
  intro xs
  induction xs with
  | nil => intro k x hk; simp at hk
  | cons y ys ih =>
    intro k x hk
    cases k with
    | zero =>
      simp only [List.getElem_cons_zero, List.set_cons_zero]
      exact List.Perm.swap x y ys
    | succ k =>
      have hk' : k < ys.length := by simpa using hk
      simp only [List.getElem_cons_succ, List.set_cons_succ]
      exact (List.Perm.swap y (ys[k]) (ys.set k x)).trans
        (((ih k x hk').cons y).trans (List.Perm.swap x y ys))

/-- A Fisher-Yates swap at valid indices permutes the list. -/
theorem swapIdx_perm {α : Type} [Inhabited α] :
    ∀ (l : List α) (i j : Nat), i < l.length → j < l.length →
      List.Perm (swapIdx l i j) l := by
  intro l
  induction l with
  | nil => intro i j hi; simp at hi
  | cons x xs ih =>
    intro i j hi hj
    cases i with
    | zero =>
      cases j with
      | zero =>
        simp [swapIdx]
      | succ k =>
        have hk : k < xs.length := by simpa using hj
        have h1 : swapIdx (x :: xs) 0 (k + 1) = xs[k] :: xs.set k x := by
          simp [swapIdx, List.getD_cons_succ, List.getD_cons_zero,
            List.getD_eq_getElem?_getD, List.getElem?_eq_getElem hk]
        rw [h1]
        exact cons_getElem_set_perm xs k x hk
    | succ m =>
      cases j with
      | zero =>
        have hm : m < xs.length := by simpa using hi
        have h1 : swapIdx (x :: xs) (m + 1) 0 = xs[m] :: xs.set m x := by
          simp [swapIdx, List.getD_cons_succ, List.getD_cons_zero,
            List.getD_eq_getElem?_getD, List.getElem?_eq_getElem hm]
        rw [h1]
        exact cons_getElem_set_perm xs m x hm
      | succ k =>
        have hm : m < xs.length := by simpa using hi
        have hk : k < xs.length := by simpa using hj
        have h1 : swapIdx (x :: xs) (m + 1) (k + 1) = x :: swapIdx xs m k := by
          simp [swapIdx, List.getD_cons_succ]
        rw [h1]
        exact (ih m k hm hk).cons x

/-- The Fisher-Yates loop permutes the list, whatever the random draws. -/
theorem shuffleArray_go_perm {α : Type} [Inhabited α] (rand : Nat → Nat) :
    ∀ (i : Nat) (l : List α), i < l.length →
      List.Perm (shuffleArray.go rand i l) l := by
  intro i
  induction i with
  | zero => intro l _; exact List.Perm.refl l
  | succ i ih =>
    intro l hi
    have hj : rand (i + 1) % (i + 2) < l.length :=
      lt_of_le_of_lt (Nat.le_of_lt_succ (Nat.mod_lt _ (Nat.succ_pos _))) hi
    have hswap := swapIdx_perm l (i + 1) (rand (i + 1) % (i + 2)) hi hj
    have hlen : (swapIdx l (i + 1) (rand (i + 1) % (i + 2))).length = l.length :=
      hswap.length_eq
    exact (ih _ (by omega)).trans hswap

/-- `shuffleArray` always produces a permutation of its input. -/
theorem shuffleArray_perm {α : Type} [Inhabited α] (rand : Nat → Nat) (l : List α) :
    List.Perm (shuffleArray rand l) l := by
  cases l with
  | nil => exact List.Perm.refl _
  | cons x xs =>
    have : (x :: xs).length - 1 = xs.length := by simp
    unfold shuffleArray
    rw [this]
    exact shuffleArray_go_perm rand xs.length (x :: xs) (by simp)

theorem take_subset_take {α : Type} (a b : Nat) (h : a ≤ b) (l : List α) :
    l.take a ⊆ l.take b := by
  intro x hx
  have heq : List.take a l = List.take a (List.take b l) := by
    rw [List.take_take, inf_eq_left.2 h]
  rw [heq] at hx
  exact List.take_subset _ _ hx

theorem slice_subset_take {α : Type} (L : List α) (hsz i : Nat) :
    (L.drop (i * hsz)).take hsz ⊆ L.take (i * hsz + hsz) := by
  intro x hx
  have heq : (L.drop (i * hsz)).take hsz = (L.take (i * hsz + hsz)).drop (i * hsz) := by
    rw [List.drop_take]
    congr 1
    omega
  rw [heq] at hx
  exact List.drop_subset _ _ hx

theorem slices_length {α : Type} (L : List α) (n hsz i : Nat) (hi : i < n)
    (hcap : n * hsz ≤ L.length) :
    ((L.drop (i * hsz)).take hsz).length = hsz := by
  rw [List.length_take, List.length_drop]
  have h1 : (i + 1) * hsz ≤ n * hsz := mul_le_mul_right' (Nat.succ_le_of_lt hi) hsz
  have h2 : (i + 1) * hsz = i * hsz + hsz := by ring
  omega

theorem slices_disjoint {α : Type} (L : List α) (hsz i j : Nat) (hnodup : L.Nodup)
    (hij : i < j) :
    ∀ c ∈ (L.drop (i * hsz)).take hsz, c ∉ (L.drop (j * hsz)).take hsz := by
  intro c hci hcj
  have hle : i * hsz + hsz ≤ j * hsz := by
    have h1 : (i + 1) * hsz ≤ j * hsz := mul_le_mul_right' (Nat.succ_le_of_lt hij) hsz
    have h2 : (i + 1) * hsz = i * hsz + hsz := by ring
    omega
  have h1 : c ∈ L.take (j * hsz) :=
    take_subset_take _ _ hle _ (slice_subset_take L hsz i hci)
  have h2 : c ∈ L.drop (j * hsz) := List.take_subset _ _ hcj
  exact (List.disjoint_take_drop hnodup le_rfl) h1 h2

/-- C8: for every player count in [2, 10] and every sequence of random
draws, `dealCards` produces exactly `players` hands of exactly
`handSize` cards each (the table satisfies handSize × playerCount ≤
deckSize), with no card in two hands and every dealt card's atomic
number at most `deckSize`. -/
theorem dealCards_spec (players : Nat) (h2 : 2 ≤ players) (h10 : players ≤ 10)
    (rand : Nat → Nat) :
    (dealCards rand players).length = players ∧
    (∀ hand ∈ dealCards rand players, hand.length = (getDeckConfig players).2) ∧
    (∀ i j, i < players → j < players → i ≠ j →
      ∀ c ∈ (dealCards rand players).getD i [], c ∉ (dealCards rand players).getD j []) ∧
    (∀ hand ∈ dealCards rand players, ∀ c ∈ hand,
      c.atomicNumber ≤ (getDeckConfig players).1) := by
  have hnum : (gameData.filter
        (fun card => card.atomicNumber ≤ (getDeckConfig players).1)).length =
        (getDeckConfig players).1 ∧
      players * (getDeckConfig players).2 ≤ (getDeckConfig players).1 := by
    interval_cases players <;> exact ⟨by decide, by decide⟩
  obtain ⟨hfl, hcap⟩ := hnum
  have hperm := shuffleArray_perm rand
    (gameData.filter (fun card => card.atomicNumber ≤ (getDeckConfig players).1))
  have hLlen : (shuffleArray rand (gameData.filter
      (fun card => card.atomicNumber ≤ (getDeckConfig players).1))).length =
      (getDeckConfig players).1 :=
    hperm.length_eq.trans hfl
  have hLnodup : (shuffleArray rand (gameData.filter
      (fun card => card.atomicNumber ≤ (getDeckConfig players).1))).Nodup :=
    (hperm.nodup_iff).2 (gameData_nodup.filter _)
  have hdeal : dealCards rand players = (List.range players).map
      (fun i => ((shuffleArray rand (gameData.filter
        (fun card => card.atomicNumber ≤ (getDeckConfig players).1))).drop
          (i * (getDeckConfig players).2)).take (getDeckConfig players).2) := rfl
  have hcapL : players * (getDeckConfig players).2 ≤ (shuffleArray rand (gameData.filter
      (fun card => card.atomicNumber ≤ (getDeckConfig players).1))).length := by
    omega
  have hgetD : ∀ i, i < players → (dealCards rand players).getD i [] =
      ((shuffleArray rand (gameData.filter
        (fun card => card.atomicNumber ≤ (getDeckConfig players).1))).drop
          (i * (getDeckConfig players).2)).take (getDeckConfig players).2 := by
    intro i hi
    rw [hdeal]
    have hil : i < ((List.range players).map
        (fun i => ((shuffleArray rand (gameData.filter
          (fun card => card.atomicNumber ≤ (getDeckConfig players).1))).drop
            (i * (getDeckConfig players).2)).take (getDeckConfig players).2)).length := by
      simpa using hi
    rw [List.getD_eq_getElem _ _ hil]
    simp
  refine ⟨by rw [hdeal]; simp, ?_, ?_, ?_⟩
  · intro hand hmem
    rw [hdeal] at hmem
    obtain ⟨i, hi, rfl⟩ := List.mem_map.1 hmem
    exact slices_length _ players _ i (List.mem_range.1 hi) hcapL
  · intro i j hi hj hne c hci hcj
    rw [hgetD i hi] at hci
    rw [hgetD j hj] at hcj
    rcases Nat.lt_or_ge i j with hij | hij
    · exact slices_disjoint _ _ i j hLnodup hij c hci hcj
    · have hji : j < i := lt_of_le_of_ne hij (Ne.symm hne)
      exact slices_disjoint _ _ j i hLnodup hji c hcj hci
  · intro hand hmem c hc
    rw [hdeal] at hmem
    obtain ⟨i, _, rfl⟩ := List.mem_map.1 hmem
    have hcL : c ∈ shuffleArray rand (gameData.filter
        (fun card => card.atomicNumber ≤ (getDeckConfig players).1)) :=
      List.drop_subset _ _ (List.take_subset _ _ hc)
    have hcf : c ∈ gameData.filter
        (fun card => card.atomicNumber ≤ (getDeckConfig players).1) :=
      (hperm.mem_iff).1 hcL
    simpa using (List.mem_filter.1 hcf).2

/-- Witness for `dealCards_spec` at 2 players with the constant-zero
random oracle. -/
theorem dealCards_spec_witness :
    (dealCards (fun _ => 0) 2).length = 2 :=
  (dealCards_spec 2 (by decide) (by decide) (fun _ => 0)).1

/-! ### Claim C4: order-independence of draft submissions

A round of the draft is a choice of hand position per seat plus an
arbitrary arrival order of the seats.  `stepSub` performs one player's
`submitDraftSelection` (keeping the old state on decline, which under
the validity hypotheses never happens), `applyRound` folds a round's
submissions in arrival order, and `applyRounds` chains rounds. -/

/-- Player at seat `k` submits hand position `choice k`. -/
def stepSub (choice : Nat → Nat) (g : GameState) (k : Nat) : GameState :=
  (submitDraftSelection g ((g.players.getD k defaultPlayer).id) (choice k : Int)).getD g

/-- Apply one round's submissions in the given arrival order. -/
def applyRound (choice : Nat → Nat) (order : List Nat) (g : GameState) : GameState :=
  order.foldl (stepSub choice) g

/-- Apply several rounds, each with its own choices and arrival order. -/
def applyRounds (rounds : List ((Nat → Nat) × List Nat)) (g : GameState) : GameState :=
  rounds.foldl (fun s cr => applyRound cr.1 cr.2 s) g

/-- Seat `k`'s hand/drafted update in isolation. -/
def updAt (choice : Nat → Nat) (ps : List Player) (k : Nat) : List Player :=
  ps.set k (movePlayerCard (ps.getD k defaultPlayer) (choice k))

/-- The updates of the seats in `done`, in order. -/
def updMany (choice : Nat → Nat) (done : List Nat) (ps : List Player) : List Player :=
  done.foldl (updAt choice) ps

/-- The canonical result of a completed round: all seats updated, then
either the drafting ends (all hands empty) or the hands rotate and the
round counter increments — exactly the completion branch of
`submitDraftSelection`. -/
def finishRound (choice : Nat → Nat) (g : GameState) : GameState :=
  let ps := updMany choice (List.range g.players.length) g.players
  if ps.all (fun p => p.hand.length == 0) then
    { g with players := ps, phase := GamePhase.scoring }
  else
    { g with players := passHands ps, currentRound := g.currentRound + 1 }

theorem updMany_append (choice : Nat → Nat) (l₁ l₂ : List Nat) (ps : List Player) :
    updMany choice (l₁ ++ l₂) ps = updMany choice l₂ (updMany choice l₁ ps) :=
  List.foldl_append _ _ _ _

theorem updAt_length (choice : Nat → Nat) (ps : List Player) (k : Nat) :
    (updAt choice ps k).length = ps.length := List.length_set _ _ _

theorem updMany_length (choice : Nat → Nat) :
    ∀ (done : List Nat) (ps : List Player), (updMany choice done ps).length = ps.length := by
  intro done
  induction done with
  | nil => intro ps; rfl
  | cons k rest ih =>
    intro ps
    show (updMany choice rest (updAt choice ps k)).length = ps.length
    rw [ih, updAt_length]

theorem getD_set_ne (ps : List Player) (k j : Nat) (v : Player) (h : k ≠ j) :
    (ps.set k v).getD j defaultPlayer = ps.getD j defaultPlayer := by
  rw [List.getD_eq_getElem?_getD, List.getD_eq_getElem?_getD, List.getElem?_set_ne h]

theorem getD_set_self (ps : List Player) (k : Nat) (v : Player) (h : k < ps.length) :
    (ps.set k v).getD k defaultPlayer = v := by
  rw [List.getD_eq_getElem?_getD, List.getElem?_set_self h]
  rfl

/-- Pointwise characterisation of `updMany` for a duplicate-free seat
list: seat `j` is updated exactly when it occurs in the list. -/
theorem updMany_getD (choice : Nat → Nat) :
    ∀ (done : List Nat) (ps : List Player) (j : Nat), done.Nodup → j < ps.length →
    (updMany choice done ps).getD j defaultPlayer =
      if j ∈ done then movePlayerCard (ps.getD j defaultPlayer) (choice j)
      else ps.getD j defaultPlayer := by
  intro done
  induction done with
  | nil => intro ps j _ _; simp [updMany]
  | cons k rest ih =>
    intro ps j hnd hj
    have hknotin : k ∉ rest := (List.nodup_cons.1 hnd).1
    have hrest : rest.Nodup := (List.nodup_cons.1 hnd).2
    have hstep : updMany choice (k :: rest) ps = updMany choice rest (updAt choice ps k) := rfl
    rw [hstep, ih (updAt choice ps k) j hrest (by rw [updAt_length]; exact hj)]
    by_cases hjr : j ∈ rest
    · have hjk : k ≠ j := fun h => hknotin (h ▸ hjr)
      rw [if_pos hjr, if_pos (List.mem_cons.2 (Or.inr hjr))]
      unfold updAt
      rw [getD_set_ne ps k j _ hjk]
    · rw [if_neg hjr]
      by_cases hjk : j = k
      · subst hjk
        rw [if_pos (List.mem_cons.2 (Or.inl rfl))]
        unfold updAt
        rw [getD_set_self ps j _ hj]
      · rw [if_neg (by simp [hjk, hjr])]
        unfold updAt
        rw [getD_set_ne ps k j _ (fun h => hjk h.symm)]

theorem map_id_set_eq (ps : List Player) (k : Nat) (v : Player)
    (h : v.id = (ps.getD k defaultPlayer).id) :
    (ps.set k v).map Player.id = ps.map Player.id := by
  apply List.ext_getElem
  · simp
  · intro n h1 h2
    have hn : n < (ps.set k v).length := by simpa using h1
    have hnps : n < ps.length := by simpa using h2
    simp only [List.getElem_map]
    by_cases hk : n = k
    · subst hk
      rw [List.getElem_set_self (by simpa using h1), h,
        List.getD_eq_getElem ps defaultPlayer hnps]
    · rw [List.getElem_set_ne (fun hh => hk hh.symm)]

theorem movePlayerCard_id (p : Player) (i : Nat) : (movePlayerCard p i).id = p.id := rfl

theorem updMany_map_id (choice : Nat → Nat) :
    ∀ (done : List Nat) (ps : List Player),
      (updMany choice done ps).map Player.id = ps.map Player.id := by
  intro done
  induction done with
  | nil => intro ps; rfl
  | cons k rest ih =>
    intro ps
    show (updMany choice rest (updAt choice ps k)).map Player.id = ps.map Player.id
    rw [ih]
    unfold updAt
    exact map_id_set_eq ps k _ rfl

theorem le_of_mem_max? : ∀ (l : List Nat) (a M : Nat), a ∈ l → l.max? = some M → a ≤ M := by
  intro l
  induction l with
  | nil => intro a M ha; cases ha
  | cons x xs ih =>
    intro a M ha hM
    rw [List.max?_cons] at hM
    have hM' : xs.max?.elim x (max x) = M := Option.some_injective _ hM
    cases hxs : xs.max? with
    | none =>
      have hnil : xs = [] := by
        cases xs with
        | nil => rfl
        | cons y ys => rw [List.max?_cons] at hxs; cases hxs
      subst hnil
      rw [hxs] at hM'
      simp only [Option.elim_none] at hM'
      rcases List.mem_singleton.1 ha with rfl
      omega
    | some M' =>
      rw [hxs] at hM'
      simp only [Option.elim_some] at hM'
      rcases List.mem_cons.1 ha with rfl | ha'
      · omega
      · have := ih a M' ha' hxs
        omega

theorem min?_le_of_mem : ∀ (l : List Nat) (a m : Nat), a ∈ l → l.min? = some m → m ≤ a := by
  intro l
  induction l with
  | nil => intro a m ha; cases ha
  | cons x xs ih =>
    intro a m ha hm
    rw [List.min?_cons] at hm
    have hm' : xs.min?.elim x (min x) = m := Option.some_injective _ hm
    cases hxs : xs.min? with
    | none =>
      have hnil : xs = [] := by
        cases xs with
        | nil => rfl
        | cons y ys => rw [List.min?_cons] at hxs; cases hxs
      subst hnil
      rw [hxs] at hm'
      simp only [Option.elim_none] at hm'
      rcases List.mem_singleton.1 ha with rfl
      omega
    | some m' =>
      rw [hxs] at hm'
      simp only [Option.elim_some] at hm'
      rcases List.mem_cons.1 ha with rfl | ha'
      · omega
      · have := ih a m' ha' hxs
        omega

theorem max?_isSome_of_mem {l : List Nat} {a : Nat} (ha : a ∈ l) : ∃ M, l.max? = some M := by
  cases l with
  | nil => cases ha
  | cons x xs => exact ⟨_, List.max?_cons⟩

theorem min?_isSome_of_mem {l : List Nat} {a : Nat} (ha : a ∈ l) : ∃ m, l.min? = some m := by
  cases l with
  | nil => cases ha
  | cons x xs => exact ⟨_, List.min?_cons⟩

/-- Two distinct values in the list force `max? ≠ min?`. -/
theorem max?_ne_min?_of_two {l : List Nat} {a b : Nat} (ha : a ∈ l) (hb : b ∈ l)
    (hab : a < b) : l.max? ≠ l.min? := by
  intro heq
  obtain ⟨M, hM⟩ := max?_isSome_of_mem ha
  obtain ⟨m, hm⟩ := min?_isSome_of_mem ha
  rw [hM, hm] at heq
  obtain rfl : M = m := Option.some_injective _ heq
  have h1 := le_of_mem_max? l b M hb hM
  have h2 := min?_le_of_mem l a M ha hm
  omega

theorem max?_of_all_eq : ∀ (l : List Nat) (v : Nat), l ≠ [] → (∀ a ∈ l, a = v) →
    l.max? = some v := by
  intro l
  induction l with
  | nil => intro v h; exact absurd rfl h
  | cons x xs ih =>
    intro v _ hall
    have hx : x = v := hall x (List.mem_cons_self _ _)
    rw [List.max?_cons]
    cases xs with
    | nil => simp [Option.elim, hx]
    | cons y ys =>
      rw [ih v (by simp) (fun a ha => hall a (List.mem_cons_of_mem x ha))]
      simp [Option.elim, hx]

theorem min?_of_all_eq : ∀ (l : List Nat) (v : Nat), l ≠ [] → (∀ a ∈ l, a = v) →
    l.min? = some v := by
  intro l
  induction l with
  | nil => intro v h; exact absurd rfl h
  | cons x xs ih =>
    intro v _ hall
    have hx : x = v := hall x (List.mem_cons_self _ _)
    rw [List.min?_cons]
    cases xs with
    | nil => simp [Option.elim, hx]
    | cons y ys =>
      rw [ih v (by simp) (fun a ha => hall a (List.mem_cons_of_mem x ha))]
      simp [Option.elim, hx]

/-- In a list whose members all equal `v`, `max?` and `min?` agree. -/
theorem max?_eq_min?_of_all_eq (l : List Nat) (v : Nat) (h : ∀ a ∈ l, a = v) :
    l.max? = l.min? := by
  cases hl : l with
  | nil => rfl
  | cons x xs =>
    rw [← hl, max?_of_all_eq l v (by rw [hl]; simp) h, min?_of_all_eq l v (by rw [hl]; simp) h]

theorem findIdx?_eq_some_of_aux (p : Player → Bool) :
    ∀ (l : List Player) (k s : Nat), k < l.length →
      p (l.getD k defaultPlayer) = true →
      (∀ j, j < k → p (l.getD j defaultPlayer) = false) →
      l.findIdx? p s = some (k + s) := by
  intro l
  induction l with
  | nil => intro k s hk; simp at hk
  | cons x xs ih =>
    intro k s hk hpk hbef
    rw [List.findIdx?_cons]
    cases k with
    | zero =>
      rw [if_pos (by simpa using hpk)]
      rw [Nat.zero_add]
    | succ k' =>
      have h0 : p x = false := by simpa using hbef 0 (Nat.succ_pos k')
      rw [if_neg (by simp [h0])]
      rw [ih k' (s + 1) (by simpa using hk) (by simpa using hpk)
        (fun j hj => by simpa using hbef (j + 1) (by omega))]
      congr 1
      omega

/-- With pairwise distinct player ids, looking up the id of the player at
seat `k` finds exactly seat `k`. -/
theorem findIdx?_id_eq (ps : List Player) (k : Nat) (hk : k < ps.length)
    (hid : (ps.map Player.id).Nodup) :
    ps.findIdx? (fun p => p.id == (ps.getD k defaultPlayer).id) = some k := by
  have hmain := findIdx?_eq_some_of_aux
    (fun p => p.id == (ps.getD k defaultPlayer).id) ps k 0 hk
    (by simp)
    ?_
  · simpa using hmain
  · intro j hj
    have hjlt : j < ps.length := lt_trans hj hk
    simp only [List.getD_eq_getElem ps defaultPlayer hjlt,
      List.getD_eq_getElem ps defaultPlayer hk]
    rw [beq_eq_false_iff_ne]
    intro heq
    have hjm : j < (ps.map Player.id).length := by simpa using hjlt
    have hkm : k < (ps.map Player.id).length := by simpa using hk
    have hmap : (ps.map Player.id)[j] = (ps.map Player.id)[k] := by
      simpa [List.getElem_map] using heq
    have := (hid.getElem_inj_iff).1 hmap
    omega

theorem exists_not_mem_of_length_lt (l : List Nat) (N : Nat) (hnd : l.Nodup)
    (hlen : l.length < N) : ∃ i, i < N ∧ i ∉ l := by
  by_contra h
  push_neg at h
  have hsub : (List.range N).toFinset ⊆ l.toFinset := by
    intro i hi
    exact List.mem_toFinset.2 (h i (List.mem_range.1 (List.mem_toFinset.1 hi)))
  have hcard := Finset.card_le_card hsub
  rw [List.toFinset_card_of_nodup (List.nodup_range N),
    List.length_range] at hcard
  have := List.toFinset_card_le l
  omega

theorem getD_mem (ps : List Player) (j : Nat) (hj : j < ps.length) :
    ps.getD j defaultPlayer ∈ ps := by
  rw [List.getD_eq_getElem ps defaultPlayer hj]
  exact List.getElem_mem _

/-- Hand lengths after the seats in `dl` have drafted: `L - 1` for
updated seats, `L` for the others. -/
theorem updMany_hand_length (choice : Nat → Nat) (ps : List Player) (L : Nat)
    (hL : ∀ p ∈ ps, p.hand.length = L)
    (hch : ∀ k, k < ps.length → choice k < L)
    (dl : List Nat) (hnd : dl.Nodup) (j : Nat) (hj : j < ps.length) :
    ((updMany choice dl ps).getD j defaultPlayer).hand.length =
      if j ∈ dl then L - 1 else L := by
  rw [updMany_getD choice dl ps j hnd hj]
  by_cases hjm : j ∈ dl
  · rw [if_pos hjm, if_pos hjm]
    show ((ps.getD j defaultPlayer).hand.eraseIdx (choice j)).length = L - 1
    have hpj : (ps.getD j defaultPlayer).hand.length = L := hL _ (getD_mem ps j hj)
    rw [List.length_eraseIdx, hpj, if_pos (hch j hj)]
  · rw [if_neg hjm, if_neg hjm]
    exact hL _ (getD_mem ps j hj)

theorem mem_handLengths (ps : List Player) (j : Nat) (hj : j < ps.length) :
    (ps.getD j defaultPlayer).hand.length ∈ handLengths ps := by
  rw [List.getD_eq_getElem ps defaultPlayer hj]
  exact List.mem_map.2 ⟨ps[j], List.getElem_mem _, rfl⟩

/-- A submission by seat `k` while fewer than `N - 1` seats have
submitted: the player is found, the selection is valid, the
round-completion test fails (an updated seat has `L - 1` cards, an
untouched seat has `L`), so the state advances by exactly the pointwise
update of seat `k`. -/
theorem stepSub_partial (choice : Nat → Nat) (g : GameState) (L : Nat)
    (hid : (g.players.map Player.id).Nodup)
    (hL : ∀ p ∈ g.players, p.hand.length = L)
    (hL1 : 1 ≤ L)
    (hch : ∀ k, k < g.players.length → choice k < L)
    (done : List Nat) (k : Nat) (hnd : done.Nodup) (hknotin : k ∉ done)
    (hk : k < g.players.length)
    (hsmall : done.length + 1 < g.players.length) :
    stepSub choice { g with players := updMany choice done g.players } k =
      { g with players := updMany choice (done ++ [k]) g.players } := by
  have hnd2 : (done ++ [k]).Nodup := by
    rw [show done ++ [k] = done ++ k :: [] from rfl, List.nodup_middle]
    simpa using List.nodup_cons.2 ⟨hknotin, hnd⟩
  have hlen' : (updMany choice done g.players).length = g.players.length :=
    updMany_length choice done g.players
  have hids' : (updMany choice done g.players).map Player.id = g.players.map Player.id :=
    updMany_map_id choice done g.players
  have hk' : k < (updMany choice done g.players).length := by rw [hlen']; exact hk
  have hgetk : (updMany choice done g.players).getD k defaultPlayer =
      g.players.getD k defaultPlayer := by
    rw [updMany_getD choice done g.players k hnd hk, if_neg hknotin]
  have hfind : (updMany choice done g.players).findIdx?
      (fun p => p.id == ((updMany choice done g.players).getD k defaultPlayer).id) =
      some k :=
    findIdx?_id_eq _ k hk' (by rw [hids']; exact hid)
  have hhandk : (g.players.getD k defaultPlayer).hand.length = L :=
    hL _ (getD_mem _ k hk)
  have hc : ¬ (((choice k : Nat) : Int) < 0 ∨
      (((updMany choice done g.players).getD k defaultPlayer).hand.length : Int) ≤
        ((choice k : Nat) : Int)) := by
    rw [hgetk]
    push_neg
    refine ⟨Int.natCast_nonneg _, ?_⟩
    rw [hhandk]
    exact_mod_cast hch k hk
  have hupdEq : (updMany choice done g.players).set k
      (movePlayerCard ((updMany choice done g.players).getD k defaultPlayer)
        (((choice k : Nat) : Int)).toNat) = updMany choice (done ++ [k]) g.players := by
    rw [updMany_append]
    rw [Int.toNat_natCast]
    rfl
  have hmax : ¬ ((handLengths (updMany choice (done ++ [k]) g.players)).max? =
      (handLengths (updMany choice (done ++ [k]) g.players)).min?) := by
    obtain ⟨j, hjN, hjnot⟩ := exists_not_mem_of_length_lt (done ++ [k]) g.players.length
      hnd2 (by simpa using hsmall)
    have hlen2 : (updMany choice (done ++ [k]) g.players).length = g.players.length :=
      updMany_length choice _ g.players
    have hmem1 : L - 1 ∈ handLengths (updMany choice (done ++ [k]) g.players) := by
      have hv := updMany_hand_length choice g.players L hL hch (done ++ [k]) hnd2 k hk
      rw [if_pos (by simp)] at hv
      rw [← hv]
      exact mem_handLengths _ k (by rw [hlen2]; exact hk)
    have hmem2 : L ∈ handLengths (updMany choice (done ++ [k]) g.players) := by
      have hv := updMany_hand_length choice g.players L hL hch (done ++ [k]) hnd2 j hjN
      rw [if_neg hjnot] at hv
      rw [← hv]
      exact mem_handLengths _ j (by rw [hlen2]; exact hjN)
    exact max?_ne_min?_of_two hmem1 hmem2 (by omega)
  unfold stepSub submitDraftSelection
  dsimp only
  rw [hfind]
  dsimp only
  rw [if_neg hc, hupdEq, if_neg hmax]
  rfl

theorem applyRound_partial (choice : Nat → Nat) (g : GameState) (L : Nat)
    (hid : (g.players.map Player.id).Nodup)
    (hL : ∀ p ∈ g.players, p.hand.length = L)
    (hL1 : 1 ≤ L)
    (hch : ∀ k, k < g.players.length → choice k < L) :
    ∀ (l done : List Nat), (done ++ l).Nodup →
      (∀ i ∈ done ++ l, i < g.players.length) →
      (done ++ l).length < g.players.length →
      applyRound choice l { g with players := updMany choice done g.players } =
        { g with players := updMany choice (done ++ l) g.players } := by
  intro l
  induction l with
  | nil =>
    intro done _ _ _
    show { g with players := updMany choice done g.players } =
      { g with players := updMany choice (done ++ []) g.players }
    rw [List.append_nil]
  | cons k rest ih =>
    intro done hnd hbound hlen
    have hmid : (k :: (done ++ rest)).Nodup := List.nodup_middle.1 hnd
    have hknotin : k ∉ done := fun h =>
      (List.nodup_cons.1 hmid).1 (List.mem_append.2 (Or.inl h))
    have hdnd : done.Nodup := (List.nodup_append.1 ((List.nodup_cons.1 hmid).2)).1
    have hk : k < g.players.length :=
      hbound k (List.mem_append.2 (Or.inr (List.mem_cons_self _ _)))
    have hsmall : done.length + 1 < g.players.length := by
      have := hlen
      simp only [List.length_append, List.length_cons] at this
      omega
    have hstep : applyRound choice (k :: rest)
        { g with players := updMany choice done g.players } =
        applyRound choice rest
          (stepSub choice { g with players := updMany choice done g.players } k) := rfl
    rw [hstep,
      stepSub_partial choice g L hid hL hL1 hch done k hdnd hknotin hk hsmall]
    have hassoc : (done ++ [k]) ++ rest = done ++ k :: rest := by simp
    have hres := ih (done ++ [k]) (by rw [hassoc]; exact hnd)
      (by rw [hassoc]; exact hbound) (by rw [hassoc]; exact hlen)
    rw [hres, hassoc]

/-- `updMany` only depends on the set of seats in a duplicate-free list. -/
theorem updMany_eq_of_mem_iff (choice : Nat → Nat) (ps : List Player) (l₁ l₂ : List Nat)
    (h₁ : l₁.Nodup) (h₂ : l₂.Nodup) (hmem : ∀ i, i ∈ l₁ ↔ i ∈ l₂) :
    updMany choice l₁ ps = updMany choice l₂ ps := by
  apply List.ext_getElem
  · rw [updMany_length, updMany_length]
  · intro n h1 h2
    have hn : n < ps.length := by rw [updMany_length] at h1; exact h1
    rw [← List.getD_eq_getElem (updMany choice l₁ ps) defaultPlayer h1,
      ← List.getD_eq_getElem (updMany choice l₂ ps) defaultPlayer h2,
      updMany_getD choice l₁ ps n h₁ hn, updMany_getD choice l₂ ps n h₂ hn]
    by_cases hm : n ∈ l₁
    · rw [if_pos hm, if_pos ((hmem n).1 hm)]
    · rw [if_neg hm, if_neg (fun hh => hm ((hmem n).2 hh))]

/-- The last submission of a round: afterwards every seat has drafted, the
hand lengths all agree, and the completion branch produces exactly
`finishRound`. -/
theorem stepSub_final (choice : Nat → Nat) (g : GameState) (L : Nat)
    (hid : (g.players.map Player.id).Nodup)
    (hL : ∀ p ∈ g.players, p.hand.length = L)
    (hL1 : 1 ≤ L)
    (hch : ∀ k, k < g.players.length → choice k < L)
    (done : List Nat) (k : Nat) (hnd : done.Nodup) (hknotin : k ∉ done)
    (hcover : ∀ i, i < g.players.length ↔ i ∈ done ++ [k]) :
    stepSub choice { g with players := updMany choice done g.players } k =
      finishRound choice g := by
  have hk : k < g.players.length :=
    (hcover k).2 (List.mem_append.2 (Or.inr (List.mem_cons_self _ _)))
  have hnd2 : (done ++ [k]).Nodup := by
    rw [show done ++ [k] = done ++ k :: [] from rfl, List.nodup_middle]
    simpa using List.nodup_cons.2 ⟨hknotin, hnd⟩
  have hlen' : (updMany choice done g.players).length = g.players.length :=
    updMany_length choice done g.players
  have hids' : (updMany choice done g.players).map Player.id = g.players.map Player.id :=
    updMany_map_id choice done g.players
  have hk' : k < (updMany choice done g.players).length := by rw [hlen']; exact hk
  have hgetk : (updMany choice done g.players).getD k defaultPlayer =
      g.players.getD k defaultPlayer := by
    rw [updMany_getD choice done g.players k hnd hk, if_neg hknotin]
  have hfind : (updMany choice done g.players).findIdx?
      (fun p => p.id == ((updMany choice done g.players).getD k defaultPlayer).id) =
      some k :=
    findIdx?_id_eq _ k hk' (by rw [hids']; exact hid)
  have hhandk : (g.players.getD k defaultPlayer).hand.length = L :=
    hL _ (getD_mem _ k hk)
  have hc : ¬ (((choice k : Nat) : Int) < 0 ∨
      (((updMany choice done g.players).getD k defaultPlayer).hand.length : Int) ≤
        ((choice k : Nat) : Int)) := by
    rw [hgetk]
    push_neg
    refine ⟨Int.natCast_nonneg _, ?_⟩
    rw [hhandk]
    exact_mod_cast hch k hk
  have hupdEq : (updMany choice done g.players).set k
      (movePlayerCard ((updMany choice done g.players).getD k defaultPlayer)
        (((choice k : Nat) : Int)).toNat) = updMany choice (done ++ [k]) g.players := by
    rw [updMany_append]
    rw [Int.toNat_natCast]
    rfl
  have hcanon : updMany choice (done ++ [k]) g.players =
      updMany choice (List.range g.players.length) g.players := by
    apply updMany_eq_of_mem_iff choice g.players _ _ hnd2 (List.nodup_range _)
    intro i
    rw [List.mem_range]
    exact (hcover i).symm
  have hlen2 : (updMany choice (List.range g.players.length) g.players).length =
      g.players.length :=
    updMany_length choice _ g.players
  have hallvals : ∀ a ∈ handLengths
      (updMany choice (List.range g.players.length) g.players), a = L - 1 := by
    intro a ha
    obtain ⟨p, hp, rfl⟩ := List.mem_map.1 ha
    obtain ⟨n, hnlt, rfl⟩ := List.mem_iff_getElem.1 hp
    have hnN : n < g.players.length := by rw [hlen2] at hnlt; exact hnlt
    rw [← List.getD_eq_getElem _ defaultPlayer hnlt]
    rw [updMany_hand_length choice g.players L hL hch _ (List.nodup_range _) n hnN]
    rw [if_pos (List.mem_range.2 hnN)]
  have hmaxmin : (handLengths (updMany choice (List.range g.players.length)
        g.players)).max? =
      (handLengths (updMany choice (List.range g.players.length) g.players)).min? :=
    max?_eq_min?_of_all_eq _ (L - 1) hallvals
  unfold stepSub submitDraftSelection
  dsimp only
  rw [hfind]
  dsimp only
  rw [if_neg hc, hupdEq, hcanon, if_pos hmaxmin]
  unfold finishRound
  dsimp only
  by_cases hall : ((updMany choice (List.range g.players.length) g.players).all
      (fun p => p.hand.length == 0)) = true
  · rw [if_pos hall, if_pos hall]
    rfl
  · rw [if_neg hall, if_neg hall]
    rfl

/-- Any arrival order that is a permutation of the seats produces the
canonical round result. -/
theorem applyRound_eq_finishRound (choice : Nat → Nat) (g : GameState) (L : Nat)
    (hid : (g.players.map Player.id).Nodup)
    (hL : ∀ p ∈ g.players, p.hand.length = L)
    (hL1 : 1 ≤ L)
    (hch : ∀ k, k < g.players.length → choice k < L)
    (hN : 0 < g.players.length)
    (order : List Nat) (horder : order.Perm (List.range g.players.length)) :
    applyRound choice order g = finishRound choice g := by
  have hordnd : order.Nodup := (horder.nodup_iff).2 (List.nodup_range _)
  have hlen : order.length = g.players.length := by
    rw [horder.length_eq, List.length_range]
  have hne : order ≠ [] := by
    intro h
    rw [h] at hlen
    simp at hlen
    omega
  obtain ⟨l', k, hsplit⟩ : ∃ l' k, order = l' ++ [k] :=
    ⟨order.dropLast, order.getLast hne, (List.dropLast_append_getLast hne).symm⟩
  have hbound : ∀ i ∈ order, i < g.players.length := fun i hi =>
    List.mem_range.1 ((horder.mem_iff).1 hi)
  have hl'nd : l'.Nodup := by
    have hh := hordnd
    rw [hsplit] at hh
    exact (List.nodup_append.1 hh).1
  have hknotin : k ∉ l' := by
    have hh := hordnd
    rw [hsplit] at hh
    intro hkl
    exact (List.nodup_append.1 hh).2.2 hkl (List.mem_singleton.2 rfl)
  have hl'len : l'.length + 1 = g.players.length := by
    rw [hsplit] at hlen
    simpa using hlen
  rw [hsplit]
  have happ : applyRound choice (l' ++ [k]) g =
      stepSub choice (applyRound choice l' g) k := by
    unfold applyRound
    rw [List.foldl_append]
    rfl
  have hpartial : applyRound choice l' g =
      { g with players := updMany choice l' g.players } := by
    have h0 := applyRound_partial choice g L hid hL hL1 hch l' []
      (by simpa using hl'nd)
      (by
        intro i hi
        refine hbound i ?_
        rw [hsplit]
        exact List.mem_append.2 (Or.inl (by simpa using hi)))
      (by simpa using (by omega : l'.length < g.players.length))
    exact h0
  rw [happ, hpartial]
  exact stepSub_final choice g L hid hL hL1 hch l' k hl'nd hknotin
    (by
      intro i
      rw [← hsplit]
      constructor
      · intro hi
        exact (horder.mem_iff).2 (List.mem_range.2 hi)
      · intro hi
        exact hbound i hi)

/-- A completed round keeps the seat count and ids, and shrinks every
hand from `L` to `L - 1` (to 0 in the final, scoring round). -/
theorem finishRound_inv (choice : Nat → Nat) (g : GameState) (L : Nat)
    (hL : ∀ p ∈ g.players, p.hand.length = L)
    (hch : ∀ k, k < g.players.length → choice k < L) :
    (finishRound choice g).players.length = g.players.length ∧
    (finishRound choice g).players.map Player.id = g.players.map Player.id ∧
    (∀ p ∈ (finishRound choice g).players, p.hand.length = L - 1) := by
  have hlen2 : (updMany choice (List.range g.players.length) g.players).length =
      g.players.length :=
    updMany_length choice _ g.players
  have hhl : ∀ n, n < g.players.length →
      ((updMany choice (List.range g.players.length) g.players).getD n
        defaultPlayer).hand.length = L - 1 := by
    intro n hn
    rw [updMany_hand_length choice g.players L hL hch _ (List.nodup_range _) n hn,
      if_pos (List.mem_range.2 hn)]
  unfold finishRound
  dsimp only
  by_cases hall : ((updMany choice (List.range g.players.length) g.players).all
      (fun p => p.hand.length == 0)) = true
  · rw [if_pos hall]
    refine ⟨hlen2, updMany_map_id choice _ g.players, ?_⟩
    intro p hp
    obtain ⟨n, hnlt, rfl⟩ := List.mem_iff_getElem.1 hp
    rw [← List.getD_eq_getElem _ defaultPlayer hnlt]
    exact hhl n (by rw [← hlen2]; exact hnlt)
  · rw [if_neg hall]
    have hN : 0 < g.players.length := by
      rcases Nat.eq_zero_or_pos g.players.length with h0 | h0
      · exfalso
        apply hall
        rw [List.all_eq_true]
        intro p hp
        rw [List.eq_nil_of_length_eq_zero (hlen2.trans h0)] at hp
        cases hp
      · exact h0
    have hplen : (passHands (updMany choice (List.range g.players.length)
        g.players)).length = g.players.length := by
      rw [passHands, List.length_mapIdx, hlen2]
    refine ⟨hplen, ?_, ?_⟩
    · rw [← updMany_map_id choice (List.range g.players.length) g.players]
      apply List.ext_getElem
      · rw [List.length_map, List.length_map, hplen, hlen2]
      · intro n h1 h2
        simp only [List.getElem_map, passHands, List.getElem_mapIdx]
    · intro p hp
      obtain ⟨n, hnlt, rfl⟩ := List.mem_iff_getElem.1 hp
      unfold passHands at hnlt ⊢
      rw [List.getElem_mapIdx]
      have hnN : n < g.players.length := by
        rw [List.length_mapIdx, hlen2] at hnlt
        exact hnlt
      show ((updMany choice (List.range g.players.length) g.players).getD
        ((n + 1) % (updMany choice (List.range g.players.length) g.players).length)
        defaultPlayer).hand.length = L - 1
      rw [hlen2]
      exact hhl _ (Nat.mod_lt _ hN)

/-- C4: for any rounds of submissions (one selection per player per
round, hand positions valid round by round) applied through
`submitDraftSelection`, any arrival orders — each an arbitrary
permutation of the seats — produce the same final game state as strict
seating order. -/
theorem draftSubmissions_order_invariant (rounds : List ((Nat → Nat) × List Nat)) :
    ∀ (g : GameState) (L : Nat),
      (g.players.map Player.id).Nodup →
      (∀ p ∈ g.players, p.hand.length = L) →
      0 < g.players.length →
      rounds.length ≤ L →
      (∀ n, n < rounds.length → ∀ k, k < g.players.length →
        (rounds.getD n default).1 k < L - n) →
      (∀ n, n < rounds.length →
        ((rounds.getD n default).2).Perm (List.range g.players.length)) →
      applyRounds rounds g =
        applyRounds (rounds.map (fun cr => (cr.1, List.range g.players.length))) g := by
  induction rounds with
  | nil => intro g L _ _ _ _ _ _; rfl
  | cons cr rest ih =>
    intro g L hid hL hN hlen hch horders
    obtain ⟨c, o⟩ := cr
    have hlen' : rest.length + 1 ≤ L := by simpa using hlen
    have hL1 : 1 ≤ L := by omega
    have hch0 : ∀ k, k < g.players.length → c k < L := by
      intro k hk
      have := hch 0 (by simp) k hk
      simpa using this
    have hord0 : o.Perm (List.range g.players.length) := by
      simpa using horders 0 (by simp)
    have h1 := applyRound_eq_finishRound c g L hid hL hL1 hch0 hN o hord0
    have h2 := applyRound_eq_finishRound c g L hid hL hL1 hch0 hN
      (List.range g.players.length) (List.Perm.refl _)
    obtain ⟨hflen, hfid, hfhand⟩ := finishRound_inv c g L hL hch0
    have hres := ih (finishRound c g) (L - 1)
      (by rw [hfid]; exact hid)
      hfhand
      (by rw [hflen]; exact hN)
      (by omega)
      (by
        intro n hn k hk
        rw [hflen] at hk
        have := hch (n + 1) (by simpa using Nat.succ_lt_succ hn) k hk
        simp only [List.getD_cons_succ] at this
        omega)
      (by
        intro n hn
        rw [hflen]
        have := horders (n + 1) (by simpa using Nat.succ_lt_succ hn)
        simpa using this)
    calc applyRounds ((c, o) :: rest) g
        = applyRounds rest (applyRound c o g) := rfl
      _ = applyRounds rest (finishRound c g) := by rw [h1]
      _ = applyRounds (rest.map (fun cr =>
            (cr.1, List.range (finishRound c g).players.length)))
            (finishRound c g) := hres
      _ = applyRounds (rest.map (fun cr =>
            (cr.1, List.range g.players.length))) (finishRound c g) := by rw [hflen]
      _ = applyRounds (rest.map (fun cr => (cr.1, List.range g.players.length)))
            (applyRound c (List.range g.players.length) g) := by rw [h2]
      _ = applyRounds (((c, o) :: rest).map (fun cr =>
            (cr.1, List.range g.players.length))) g := rfl

/-- A 2-player, 1-round game for the order-invariance witness. -/
def permGame : GameState :=
  { id := "g", phase := GamePhase.drafting,
    players :=
      [⟨"a", "P1", true, [testCard 1], []⟩,
       ⟨"b", "P2", false, [testCard 2], []⟩],
    deck := [], currentRound := 1, totalRounds := 1, wordSpellingWinners := [] }

/-- Witness for `draftSubmissions_order_invariant`: one round submitted in
reverse seating order equals the seating-order result. -/
theorem draftSubmissions_order_invariant_witness :
    applyRounds [(fun _ => 0, [1, 0])] permGame =
      applyRounds ([(fun _ => 0, [1, 0])].map (fun cr =>
        (cr.1, List.range permGame.players.length))) permGame :=
  draftSubmissions_order_invariant [(fun _ => 0, [1, 0])] permGame 1
    (by decide) (by decide) (by decide) (by decide)
    (by decide) (by decide)
